import Mathlib

/-!
# httpsnoop code generator (`codegen/main.go`)

A shallow embedding of the generator and of the Go code it emits.

* The catalog (`Interface`, `InterfaceFunc`, `FuncArg`, `ifaces`) and the string
  helpers are transcribed from the source.
* The enumeration loop of `main` is transcribed as `genCase` / `genCases`; the
  counter `i` and the masks `1<<uint(...)` are Go `int`s, modelled as integers
  wrapped to `intBits` bits.
* The emitted `Wrap` function and the emitted `rw` methods are given a small
  operational semantics (`selectCase`, `Wrap`, `execBody`, `runMethod`), so that
  statements about the behaviour of the generated code can be made.
-/

namespace Codegen

/-! ## Catalog data model -/

/-- One parameter of an operation: the struct `FuncArg` with fields `Name` and `Type`. -/
structure FuncArg where
  Name : String
  Ty : String
deriving DecidableEq, Repr

/-- The parameter list: `type FuncArgs []*FuncArg`. -/
abbrev FuncArgs := List FuncArg

/-- Go `strings.Join`. -/
def join (xs : List String) (sep : String) : String := sep.intercalate xs

/-- The method `func (fa FuncArgs) Names() string`. -/
def FuncArgs.Names (fa : FuncArgs) : String :=
  join (fa.map fun a => a.Name) ", "

/-- The method `func (fa FuncArgs) String() string`. -/
def FuncArgs.String (fa : FuncArgs) : String :=
  join (fa.map fun a => a.Name ++ " " ++ a.Ty) ", "

/-- An operation: the struct `InterfaceFunc` with fields `Name`, `Args` and `Returns`. -/
structure InterfaceFunc where
  Name : String
  Args : FuncArgs
  Returns : String
deriving DecidableEq, Repr

/-- The method `func (fn *InterfaceFunc) Type() string`. -/
def InterfaceFunc.TypeName (fn : InterfaceFunc) : String := fn.Name ++ "Func"

/-- A capability: the struct `Interface` with fields `Name` and `Funcs`. -/
structure Interface where
  Name : String
  Funcs : List InterfaceFunc
deriving DecidableEq, Repr

/-- The compiled-in catalog `var ifaces`. -/
def ifaces : List Interface :=
  [ { Name := "http.ResponseWriter",
      Funcs := [ ⟨"Header", [], "http.Header"⟩,
                 ⟨"WriteHeader", [⟨"code", "int"⟩], ""⟩,
                 ⟨"Write", [⟨"b", "[]byte"⟩], "int, error"⟩ ] },
    { Name := "http.Flusher",
      Funcs := [ ⟨"Flush", [], ""⟩ ] },
    { Name := "http.CloseNotifier",
      Funcs := [ ⟨"CloseNotify", [], "<-chan bool"⟩ ] },
    { Name := "http.Hijacker",
      Funcs := [ ⟨"Hijack", [], "net.Conn, *bufio.ReadWriter, error"⟩ ] },
    { Name := "io.ReaderFrom",
      Funcs := [ ⟨"ReadFrom", [⟨"src", "io.Reader"⟩], "int64, error"⟩ ] } ]

/-- In `main`: `subIfaces := ifaces[1:]`. -/
def subIfaces : List Interface := ifaces.drop 1

/-- All operations of a catalog, in the order of the nested loops
`for _, iface := range ifaces` / `for _, fn := range iface.Funcs`. -/
def allFuncs (cat : List Interface) : List (Interface × InterfaceFunc) :=
  cat.flatMap fun iface => iface.Funcs.map fun fn => (iface, fn)

/-! ## Package header and type declarations emitted by `main` -/

/-- The strings printed by the "Package header" block of `main`, one per `g.Printf`. -/
def packageHeader : List String :=
  [ "// Code generated by \"httpsnoop/codegen\"; DO NOT EDIT\n",
    "\n",
    "package httpsnoop\n",
    "import (\n",
    "\"net/http\"" ++ "\n",
    "\"io\"" ++ "\n",
    ")\n",
    "\n" ]

/-- The three strings printed per operation by the "Hook funcs" block. -/
def hookFuncLines (iface : Interface) (fn : InterfaceFunc) : List String :=
  [ "// " ++ fn.TypeName ++ " is part of the " ++ iface.Name ++ " interface.\n",
    "type " ++ fn.TypeName ++ " func(" ++ fn.Args.String ++ ") (" ++ fn.Returns ++ ")\n",
    "\n" ]

/-- The line printed per operation inside the emitted `type Hooks struct`:
`g.Printf("%s func(%s) %s\n", fn.Name, fn.Type(), fn.Type())`. -/
def hooksFieldLine (fn : InterfaceFunc) : String :=
  fn.Name ++ " func(" ++ fn.TypeName ++ ") " ++ fn.TypeName ++ "\n"

/-- The field lines of the emitted `Hooks` struct, in emission order. -/
def hooksStructLines (cat : List Interface) : List String :=
  (allFuncs cat).map fun p => hooksFieldLine p.2

/-! ## Go `int` arithmetic -/

/-- Width of Go's `int` on the 64-bit platforms. -/
def intBits : Nat := 64

/-- Two's-complement wrap-around of an integer to a Go `int`. -/
def wrapInt (x : Int) : Int :=
  (x + 2 ^ (intBits - 1)) % 2 ^ intBits - 2 ^ (intBits - 1)

/-- Go `x << uint(s)` on `int`. -/
def shl (x : Int) (s : Nat) : Int := wrapInt (x * 2 ^ s)

/-! ## The enumeration loop -/

/-- One entry of `conditions`: the flag `i<flag>`, prefixed by `!` when `negated`. -/
structure Lit where
  negated : Bool
  flag : Nat
deriving DecidableEq, Repr

/-- The text of an entry of `conditions`:
`conditions[j] = "!"` (when not ok), then `conditions[j] += fmt.Sprintf("i%d", j)`. -/
def Lit.render (l : Lit) : String :=
  (if l.negated then "!" else "") ++ ("i" ++ toString l.flag)

/-- One emitted `case`: the slices `conditions` and `fields` built by one
iteration of the outer loop. -/
structure Case where
  conditions : List Lit
  fields : List String
deriving DecidableEq, Repr

/-- The test `ok := i&(1<<uint(len(subIfaces)-j-1)) > 0`, where `n = len(subIfaces)`. -/
def okBit (n : Nat) (i : Int) (j : Nat) : Bool :=
  decide (Int.land i (shl 1 (n - j - 1)) > 0)

/-- One step of the inner loop `for j, iface := range subIfaces`. -/
def caseStep (n : Nat) (i : Int) (c : Case) (p : Nat × Interface) : Case :=
  if okBit n i p.1 then
    { conditions := c.conditions ++ [⟨false, p.1⟩], fields := c.fields ++ [p.2.Name] }
  else
    { conditions := c.conditions ++ [⟨true, p.1⟩], fields := c.fields }

/-- The body of the outer loop for counter value `i`: `fields` starts as
`["http.ResponseWriter"]`, then the inner loop runs over `subIfaces`. -/
def genCase (subs : List Interface) (i : Int) : Case :=
  subs.enum.foldl (caseStep subs.length i) ⟨[], ["http.ResponseWriter"]⟩

/-- The loop bound `1<<uint(len(subIfaces))`. -/
def loopBound (subs : List Interface) : Int := shl 1 subs.length

/-- The outer loop `for i := 0; i < 1<<uint(len(subIfaces)); i++`: the cases in
emission order. The counter takes the values `0, 1, ...` while it is below the bound. -/
def genCases (subs : List Interface) : List Case :=
  (List.range (loopBound subs).toNat).map fun (i : Nat) => genCase subs (i : Int)

/-- The two strings printed for a case:
`g.Printf("case %s:\n", strings.Join(conditions, "&&"))` and
`g.Printf("return struct(open brace)\n%s\n(close brace)(open brace)%s(close brace)\n", fieldsS, valuesS)`,
where `values` holds `"rw"` once per field. -/
def caseLines (c : Case) : List String :=
  [ "case " ++ join (c.conditions.map Lit.render) "&&" ++ ":\n",
    "return struct\x7b\n" ++ join c.fields "\n" ++ "\n\x7d\x7b"
      ++ join (c.fields.map fun _ => "rw") "," ++ "\x7d\n" ]

/-- The detection lines `g.Printf("_, i%d := w.(%s)\n", i, iface.Name)`. -/
def detectLines (subs : List Interface) : List String :=
  subs.enum.map fun p => "_, i" ++ toString p.1 ++ " := w.(" ++ p.2.Name ++ ")\n"

/-! ## Semantics of the emitted `Wrap` -/

/-- Go computations over a world state `σ`; `none` is a run-time panic. -/
abbrev Go (σ : Type) (α : Type) : Type := StateT σ Option α

/-- A func value such as a bound method: argument values in, result values out. -/
abbrev Method (σ Val : Type) : Type := List Val → Go σ (List Val)

/-- A non-nil hook, of Go type `func(XFunc) XFunc`. -/
abbrev Hook (σ Val : Type) : Type := Method σ Val → Go σ (Method σ Val)

/-- A value of the emitted `Hooks` struct: the field named after an operation,
`none` when that field is nil. -/
abbrev Hooks (σ Val : Type) : Type := String → Option (Hook σ Val)

/-- The dynamic value `w`: its method set, by method name. -/
abbrev Object (σ Val : Type) : Type := String → Option (Method σ Val)

/-- Success of the type assertion `w.(iface)`: the method set of `w` has every
operation of the interface. -/
def implements {σ Val : Type} (w : Object σ Val) (iface : Interface) : Bool :=
  iface.Funcs.all fun fn => (w fn.Name).isSome

/-- The flags `i0, i1, ...` set by the lines `_, i%d := w.(%s)`. -/
def detect {σ Val : Type} (subs : List Interface) (w : Object σ Val) : List Bool :=
  subs.map (implements w)

/-- Value of one conjunct `i<k>` or `!i<k>` under the flags. -/
def Lit.holds (flags : List Bool) (l : Lit) : Bool :=
  if l.negated then !(flags.getD l.flag false) else flags.getD l.flag false

/-- Value of the case expression `strings.Join(conditions, "&&")` under the flags:
the conjunction of its conjuncts. With no optional capability the joined text is
empty; the conjunction of no conjuncts is taken as true. -/
def Case.holds (flags : List Bool) (c : Case) : Bool :=
  c.conditions.all (Lit.holds flags)

/-- The emitted expressionless `switch`: the first case, in emission order, whose
expression is true is taken; `none` when no case is taken and control reaches
`panic("unreachable")`. -/
def selectCase (subs : List Interface) (flags : List Bool) : Option Case :=
  (genCases subs).find? (Case.holds flags)

/-- The emitted `type rw struct` with fields `w http.ResponseWriter` and `h Hooks`. -/
structure Rw (σ Val : Type) where
  w : Object σ Val
  h : Hooks σ Val

/-- The anonymous struct returned by a case: its embedded interface fields, each
of which holds the same `rw`. -/
structure Wrapped (σ Val : Type) where
  fields : List String
  rw : Rw σ Val

/-- The emitted `func Wrap(w http.ResponseWriter, hooks Hooks) http.ResponseWriter`;
`none` is the trailing `panic("unreachable")`. -/
def Wrap {σ Val : Type} (subs : List Interface) (w : Object σ Val) (hooks : Hooks σ Val) :
    Option (Wrapped σ Val) :=
  let rw : Rw σ Val := ⟨w, hooks⟩
  match selectCase subs (detect subs w) with
  | some c => some ⟨c.fields, rw⟩
  | none => none

/-- The optional capabilities whose flag is set, by name and in catalog order. -/
def detectedNames (subs : List Interface) (flags : List Bool) : List String :=
  (subs.enum.filter fun p => flags.getD p.1 false).map fun p => p.2.Name

/-! ## The emitted `rw` methods -/

/-- The statements of an emitted method body. -/
inductive Stmt where
  /-- The statement `f := w.w.(iface).fn`. -/
  | bindMethod (iface : Interface) (fn : String)
  /-- The statement `if w.h.fn != nil` then `f = w.h.fn(f)`. -/
  | applyHook (fn : String)
  /-- The statement `f(args)`, preceded by `return ` when `ret` is set. -/
  | call (ret : Bool) (args : List String)
deriving DecidableEq, Repr

/-- An emitted method `func (w *rw) name(params) (returns)` with its body. -/
structure MethodDecl where
  name : String
  params : FuncArgs
  returns : String
  body : List Stmt
deriving DecidableEq, Repr

/-- The method emitted for one operation by the last loop nest of `main`. -/
def genMethod (iface : Interface) (fn : InterfaceFunc) : MethodDecl :=
  { name := fn.Name
    params := fn.Args
    returns := fn.Returns
    body := [ Stmt.bindMethod iface fn.Name,
              Stmt.applyHook fn.Name,
              Stmt.call (fn.Returns != "") (fn.Args.map fun a => a.Name) ] }

/-- The strings printed for one operation by the last loop nest of `main`. -/
def methodLines (iface : Interface) (fn : InterfaceFunc) : List String :=
  [ "func (w *rw) " ++ fn.Name ++ "(" ++ fn.Args.String ++ ") (" ++ fn.Returns ++ ") \x7b\n",
    "f := w.w.(" ++ iface.Name ++ ")." ++ fn.Name ++ "\n",
    "if w.h." ++ fn.Name ++ " != nil \x7b\n",
    "f = w.h." ++ fn.Name ++ "(f)\n",
    "\x7d\n" ]
  ++ (if fn.Returns != "" then ["return "] else [])
  ++ [ "f(" ++ fn.Args.Names ++ ")\n",
       "\x7d\n",
       "\n" ]

/-- All emitted methods of `rw`, in emission order. -/
def rwMethods (cat : List Interface) : List MethodDecl :=
  (allFuncs cat).map fun p => genMethod p.1 p.2

/-- The values of the argument expressions of a call: each is a parameter name,
looked up in `env`. -/
def lookupArgs {Val : Type} (env : List (String × Val)) : List String → Option (List Val)
  | [] => some []
  | a :: rest =>
      match env.lookup a, lookupArgs env rest with
      | some v, some vs => some (v :: vs)
      | _, _ => none

/-- Execution of a method body on receiver `rw`, with the parameters bound in
`env` and the local variable `f` (unset before its declaration). A method that
reaches the end of its body returns nothing. -/
def execBody {σ Val : Type} (rw : Rw σ Val) (env : List (String × Val)) :
    List Stmt → Option (Method σ Val) → Go σ (List Val)
  | [], _ => pure []
  | Stmt.bindMethod iface fn :: rest, _ =>
      if implements rw.w iface then
        match rw.w fn with
        | some m => execBody rw env rest (some m)
        | none => failure
      else failure
  | Stmt.applyHook fn :: rest, some f =>
      match rw.h fn with
      | none => execBody rw env rest (some f)
      | some h => h f >>= fun g => execBody rw env rest (some g)
  | Stmt.applyHook _ :: _, none => failure
  | Stmt.call ret args :: rest, some f =>
      match lookupArgs env args with
      | some vals => f vals >>= fun r => if ret then pure r else execBody rw env rest (some f)
      | none => failure
  | Stmt.call _ _ :: _, none => failure

/-- A call of an emitted method: the arguments are bound to the declared
parameters by position, then the body runs. -/
def runMethod {σ Val : Type} (rw : Rw σ Val) (d : MethodDecl) (args : List Val) :
    Go σ (List Val) :=
  execBody rw ((d.params.map fun a => a.Name).zip args) d.body none

/-- The method set of the returned struct: the operations of the catalog
interfaces that are embedded in it. -/
def Wrapped.exposes {σ Val : Type} (cat : List Interface) (wr : Wrapped σ Val)
    (op : String) : Bool :=
  cat.any fun iface => wr.fields.contains iface.Name && iface.Funcs.any fun fn => fn.Name == op

/-- A call of operation `op` on the returned struct: it is promoted from an
embedded field, all of which hold `rw`, so it runs the emitted `rw` method of
that name; `none` when the struct has no such method. -/
def Wrapped.call {σ Val : Type} (cat : List Interface) (wr : Wrapped σ Val)
    (op : String) (args : List Val) : Option (Go σ (List Val)) :=
  if wr.exposes cat op then
    ((rwMethods cat).find? fun d => d.name == op).map fun d => runMethod wr.rw d args
  else none

/-! ## Imports needed by the emitted declarations -/

/-- Characters of a Go identifier. -/
def isIdentChar (c : Char) : Bool := c.isAlphanum || c == '_'

/-- The package qualifiers in a piece of Go type text: every identifier that is
directly followed by a dot. `cur` is the identifier being read, reversed. -/
def qualifiersAux : List Char → List Char → List String
  | [], _ => []
  | c :: rest, cur =>
      if isIdentChar c then qualifiersAux rest (c :: cur)
      else if c == '.' && !cur.isEmpty then String.mk cur.reverse :: qualifiersAux rest []
      else qualifiersAux rest []

/-- The package qualifiers occurring in a piece of Go type text. -/
def qualifiers (s : String) : List String := qualifiersAux s.toList []

/-- Every package qualifier used by the catalog: in capability names, parameter
types and return shapes. -/
def usedPackages (cat : List Interface) : List String :=
  cat.flatMap fun iface =>
    qualifiers iface.Name ++
      iface.Funcs.flatMap fun fn =>
        (fn.Args.flatMap fun a => qualifiers a.Ty) ++ qualifiers fn.Returns

/-- The import path on a header line of the form `"path"` followed by a newline. -/
def importPath? (line : String) : Option String :=
  match line.toList with
  | '"' :: rest =>
      match rest.reverse with
      | '\n' :: '"' :: body => some (String.mk body.reverse)
      | _ => none
  | _ => none

/-- The characters after the last slash; `cur` is the element being read, reversed. -/
def lastElemAux : List Char → List Char → List Char
  | [], cur => cur.reverse
  | c :: rest, cur => if c == '/' then lastElemAux rest [] else lastElemAux rest (c :: cur)

/-- The package name an import path binds: its last path element. -/
def packageName (path : String) : String :=
  String.mk (lastElemAux path.toList [])

/-- The packages imported by a header, by the name they bind. -/
def importedPackages (header : List String) : List String :=
  (header.filterMap importPath?).map packageName

/-! ## Example values -/

/-- A func value that returns its arguments and counts the call in the state. -/
def exampleMethod : Method Nat Nat := fun args s => some (args, s + 1)

/-- A writer whose method set holds just the three operations of `http.ResponseWriter`. -/
def exampleWriter : Object Nat Nat := fun name =>
  if name = "Header" ∨ name = "WriteHeader" ∨ name = "Write" then some exampleMethod else none

/-- A hook whose callable increments every argument before calling the original. -/
def exampleHook : Hook Nat Nat := fun f => pure fun args => f (args.map fun a => a + 1)

/-- A `Hooks` value with every field nil. -/
def noHooks : Hooks Nat Nat := fun _ => none

/-- A `Hooks` value with only the `Write` field set. -/
def writeHooks : Hooks Nat Nat := fun name => if name = "Write" then some exampleHook else none

/-- A `Hooks` value with only the `Flush` field set. -/
def flushHooks : Hooks Nat Nat := fun name => if name = "Flush" then some exampleHook else none

/-- The `Write` operation of the compiled-in catalog, with its interface. -/
def exampleOp : Interface × InterfaceFunc :=
  ( { Name := "http.ResponseWriter",
      Funcs := [ ⟨"Header", [], "http.Header"⟩,
                 ⟨"WriteHeader", [⟨"code", "int"⟩], ""⟩,
                 ⟨"Write", [⟨"b", "[]byte"⟩], "int, error"⟩ ] },
    ⟨"Write", [⟨"b", "[]byte"⟩], "int, error"⟩ )

/-! ## Auxiliary definitions -/

/-- Auxiliary to the proofs: the counter value whose bits, most significant first,
are the given flags. -/
def flagsIndex : List Bool → Nat
  | [] => 0
  | b :: bs => b.toNat * 2 ^ bs.length + flagsIndex bs

/-! # Theorems -/

set_option maxRecDepth 100000

/-! ## Integer lemmas -/

theorem wrapInt_of_lt (x : Int) (h0 : 0 ≤ x) (h1 : x < 2 ^ 63) : wrapInt x = x := by
  unfold wrapInt intBits
  have : (x + 2 ^ (64 - 1)) % 2 ^ 64 = x + 2 ^ 63 := by
    apply Int.emod_eq_of_lt <;> omega
  rw [this]; norm_num

theorem shl_one (s : Nat) (h : s ≤ 62) : shl 1 s = ((2 ^ s : Nat) : Int) := by
  unfold shl
  have h2 : (2:Int) ^ s < 2 ^ 63 := by
    apply pow_lt_pow_right₀ (by norm_num) (by omega)
  rw [wrapInt_of_lt _ (by positivity) (by simpa using h2)]
  simp

theorem okBit_eq (n i j : Nat) (hn : n ≤ 62) :
    okBit n (i : Int) j = i.testBit (n - j - 1) := by
  unfold okBit
  rw [shl_one _ (by omega)]
  have : Int.land (i : Int) ((2 ^ (n - j - 1) : Nat) : Int)
      = ((i &&& 2 ^ (n - j - 1) : Nat) : Int) := rfl
  rw [this, Nat.and_two_pow]
  cases h : i.testBit (n - j - 1) <;> simp

theorem loopBound_toNat (subs : List Interface) (hn : subs.length ≤ 62) :
    (loopBound subs).toNat = 2 ^ subs.length := by
  unfold loopBound
  rw [shl_one _ hn]
  exact Int.toNat_ofNat _

theorem genCases_eq (subs : List Interface) (hn : subs.length ≤ 62) :
    genCases subs = (List.range (2 ^ subs.length)).map fun (i : Nat) => genCase subs (i : Int) := by
  unfold genCases
  rw [loopBound_toNat subs hn]

/-! ## The inner loop in closed form -/

theorem foldl_caseStep (n : Nat) (i : Int) (l : List (Nat × Interface)) (c : Case) :
    l.foldl (caseStep n i) c =
      ⟨c.conditions ++ l.map (fun p => ⟨!okBit n i p.1, p.1⟩),
       c.fields ++ (l.filter fun p => okBit n i p.1).map fun p => p.2.Name⟩ := by
  induction l generalizing c with
  | nil => simp
  | cons p l ih =>
    rw [List.foldl_cons, ih]
    unfold caseStep
    cases h : okBit n i p.1 <;> simp [h]

theorem genCase_eq (subs : List Interface) (i : Int) :
    genCase subs i =
      ⟨subs.enum.map (fun p => ⟨!okBit subs.length i p.1, p.1⟩),
       "http.ResponseWriter" ::
         (subs.enum.filter fun p => okBit subs.length i p.1).map fun p => p.2.Name⟩ := by
  unfold genCase
  rw [foldl_caseStep]
  simp

theorem holds_genCase (subs : List Interface) (i : Int) (flags : List Bool) :
    Case.holds flags (genCase subs i) = true ↔
      ∀ j, j < subs.length → flags.getD j false = okBit subs.length i j := by
  rw [genCase_eq]
  unfold Case.holds
  rw [List.all_eq_true]
  constructor
  · intro h j hj
    have hm : (j, subs[j]) ∈ subs.enum := by
      rw [List.mk_mem_enum_iff_getElem?]; simp [hj]
    have := h _ (List.mem_map.2 ⟨_, hm, rfl⟩)
    unfold Lit.holds at this
    revert this
    cases okBit subs.length i j <;> cases flags.getD j false <;> simp
  · intro h l hl
    obtain ⟨⟨j, x⟩, hm, rfl⟩ := List.mem_map.1 hl
    have hj := (List.mem_enum hm).1
    have := h j hj
    unfold Lit.holds
    simp only
    rw [this]
    cases okBit subs.length i j <;> simp

/-! ## The counter value of a flag assignment -/

theorem flagsIndex_lt (flags : List Bool) : flagsIndex flags < 2 ^ flags.length := by
  induction flags with
  | nil => simp [flagsIndex]
  | cons b bs ih =>
    simp only [flagsIndex, List.length_cons, pow_succ]
    cases b <;> simp <;> omega

theorem testBit_flagsIndex (flags : List Bool) (j : Nat) (hj : j < flags.length) :
    (flagsIndex flags).testBit (flags.length - j - 1) = flags.getD j false := by
  induction flags generalizing j with
  | nil => simp at hj
  | cons b bs ih =>
    have hlt := flagsIndex_lt bs
    cases j with
    | zero =>
      simp only [flagsIndex, List.length_cons, List.getD_cons_zero]
      have : bs.length + 1 - 0 - 1 = bs.length := by omega
      rw [this]
      cases b
      · simp [Nat.testBit_lt_two_pow hlt]
      · simp [Nat.testBit_two_pow_add_eq, Nat.testBit_lt_two_pow hlt]
    | succ j =>
      simp only [List.length_cons] at hj
      simp only [flagsIndex, List.length_cons, List.getD_cons_succ]
      have e : bs.length + 1 - (j + 1) - 1 = bs.length - j - 1 := by omega
      rw [e, ← ih j (by omega)]
      cases b
      · simp
      · simp only [Bool.toNat_true, one_mul]
        exact Nat.testBit_two_pow_add_gt (by omega) _

theorem index_unique (n i k : Nat) (hi : i < 2 ^ n) (hk : k < 2 ^ n)
    (h : ∀ j, j < n → i.testBit (n - j - 1) = k.testBit (n - j - 1)) : i = k := by
  apply Nat.eq_of_testBit_eq
  intro b
  by_cases hb : b < n
  · have := h (n - b - 1) (by omega)
    have e : n - (n - b - 1) - 1 = b := by omega
    rwa [e] at this
  · have hle : 2 ^ n ≤ 2 ^ b := Nat.pow_le_pow_right (by norm_num) (by omega)
    rw [Nat.testBit_lt_two_pow (by omega), Nat.testBit_lt_two_pow (by omega)]

theorem filter_range_eq (M k : Nat) (hk : k < M) (p : Nat → Bool)
    (hp : ∀ i, i < M → (p i = true ↔ i = k)) :
    (List.range M).filter p = [k] := by
  induction M with
  | zero => omega
  | succ M ih =>
    rw [List.range_succ, List.filter_append]
    by_cases hkM : k = M
    · subst hkM
      have h1 : (List.range k).filter p = [] := by
        rw [List.filter_eq_nil_iff]
        intro a ha
        have ha := List.mem_range.mp ha
        rw [hp a (by omega)]; omega
      have h2 : p k = true := (hp k (by omega)).2 rfl
      simp [h1, h2]
    · have h1 := ih (by omega) (fun i hi => hp i (by omega))
      have h2 : ¬ (p M = true) := by rw [hp M (by omega)]; omega
      simp [h1, h2]

/-- Under the flags, only the case emitted at counter value `flagsIndex flags` holds. -/
theorem filter_holds (subs : List Interface) (flags : List Bool)
    (hn : subs.length ≤ 62) (hf : flags.length = subs.length) :
    (genCases subs).filter (Case.holds flags) = [genCase subs (flagsIndex flags : Nat)] := by
  rw [genCases_eq subs hn, List.filter_map,
    filter_range_eq (2 ^ subs.length) (flagsIndex flags) (hf ▸ flagsIndex_lt flags), List.map_singleton]
  intro i hi
  simp only [Function.comp]
  rw [holds_genCase]
  constructor
  · intro h
    apply index_unique subs.length i _ hi (hf ▸ flagsIndex_lt flags)
    intro j hj
    rw [← okBit_eq _ _ _ hn, ← h j hj, ← hf, testBit_flagsIndex flags j (by omega)]
  · rintro rfl j hj
    rw [okBit_eq _ _ _ hn, ← hf, testBit_flagsIndex flags j (by omega)]

/-! ## Selection in closed form -/

theorem selectCase_eq (subs : List Interface) (flags : List Bool)
    (hn : subs.length ≤ 62) (hf : flags.length = subs.length) :
    selectCase subs flags = some (genCase subs (flagsIndex flags : Nat)) := by
  unfold selectCase
  rw [← List.filter_head?, filter_holds subs flags hn hf]
  rfl

theorem fields_genCase_flagsIndex (subs : List Interface) (flags : List Bool)
    (hn : subs.length ≤ 62) (hf : flags.length = subs.length) :
    (genCase subs (flagsIndex flags : Nat)).fields
      = "http.ResponseWriter" :: detectedNames subs flags := by
  rw [genCase_eq]
  unfold detectedNames
  simp only
  congr 2
  apply List.filter_congr
  rintro ⟨j, x⟩ hm
  have hj := (List.mem_enum hm).1
  simp only
  rw [okBit_eq _ _ _ hn, ← hf, testBit_flagsIndex flags j (by omega)]

theorem detect_length {σ Val : Type} (subs : List Interface) (w : Object σ Val) :
    (detect subs w).length = subs.length := by
  simp [detect]

theorem Wrap_eq {σ Val : Type} (subs : List Interface) (w : Object σ Val) (hooks : Hooks σ Val)
    (hn : subs.length ≤ 62) :
    Wrap subs w hooks
      = some ⟨"http.ResponseWriter" :: detectedNames subs (detect subs w), ⟨w, hooks⟩⟩ := by
  unfold Wrap
  simp only [selectCase_eq subs _ hn (detect_length subs w),
    fields_genCase_flagsIndex subs _ hn (detect_length subs w)]

/-! ## Distinct names give distinct field lists -/

theorem filter_names_inj (l : List (Nat × Interface)) (p q : Nat × Interface → Bool)
    (hnd : (l.map fun x => x.2.Name).Nodup)
    (h : (l.filter p).map (fun x => x.2.Name) = (l.filter q).map fun x => x.2.Name) :
    ∀ x ∈ l, p x = q x := by
  induction l with
  | nil => simp
  | cons a l ih =>
    rw [List.map_cons, List.nodup_cons] at hnd
    have sub : ∀ r : Nat × Interface → Bool,
        ∀ s ∈ (l.filter r).map (fun x => x.2.Name), s ∈ l.map fun x => x.2.Name := by
      intro r s hs
      obtain ⟨y, hy, rfl⟩ := List.mem_map.1 hs
      exact List.mem_map.2 ⟨y, (List.mem_filter.1 hy).1, rfl⟩
    rw [List.filter_cons, List.filter_cons] at h
    cases hp : p a <;> cases hq : q a <;> simp only [hp, hq, Bool.false_eq_true, if_false,
      if_true, List.map_cons] at h
    · intro x hx
      rcases List.mem_cons.1 hx with rfl | hx
      · rw [hp, hq]
      · exact ih hnd.2 h x hx
    · exfalso
      apply hnd.1
      apply sub p
      rw [h]
      exact List.mem_cons_self _ _
    · exfalso
      apply hnd.1
      apply sub q
      rw [← h]
      exact List.mem_cons_self _ _
    · intro x hx
      rcases List.mem_cons.1 hx with rfl | hx
      · rw [hp, hq]
      · exact ih hnd.2 (List.cons.inj h).2 x hx

theorem enum_names (subs : List Interface) :
    (subs.enum.map fun x => x.2.Name) = subs.map fun s => s.Name := by
  have : (subs.enum.map fun x => x.2.Name) = (subs.enum.map Prod.snd).map fun s => s.Name := by
    rw [List.map_map]; rfl
  rw [this, List.enum_map_snd]

theorem genCase_fields_inj (subs : List Interface) (hn : subs.length ≤ 62)
    (hnd : (subs.map fun s => s.Name).Nodup) (i k : Nat)
    (hi : i < 2 ^ subs.length) (hk : k < 2 ^ subs.length)
    (h : (genCase subs (i : Int)).fields = (genCase subs (k : Int)).fields) : i = k := by
  rw [genCase_eq, genCase_eq] at h
  simp only [List.cons.injEq, true_and] at h
  have key := filter_names_inj subs.enum _ _ (by rw [enum_names]; exact hnd) h
  apply index_unique subs.length i k hi hk
  intro j hj
  have hm : (j, subs[j]) ∈ subs.enum := by
    rw [List.mk_mem_enum_iff_getElem?]; simp [hj]
  have := key _ hm
  simp only at this
  rwa [okBit_eq _ _ _ hn, okBit_eq _ _ _ hn] at this

/-! ## Binding of arguments -/

theorem lookupArgs_of_agree {Val : Type} (names : List String) (args : List Val)
    (env : List (String × Val)) (hnd : names.Nodup) (hl : names.length = args.length)
    (henv : ∀ a ∈ names, env.lookup a = (names.zip args).lookup a) :
    lookupArgs env names = some args := by
  induction names generalizing args env with
  | nil =>
    cases args with
    | nil => rfl
    | cons v vs => simp at hl
  | cons n ns ih =>
    cases args with
    | nil => simp at hl
    | cons v vs =>
      rw [List.nodup_cons] at hnd
      have h0 : env.lookup n = some v := by
        rw [henv n (List.mem_cons_self _ _)]
        simp [List.lookup]
      have h1 : lookupArgs env ns = some vs := by
        apply ih vs env hnd.2 (by simpa using hl)
        intro a ha
        rw [henv a (List.mem_cons_of_mem _ ha)]
        have hne : (a == n) = false := by
          rw [beq_eq_false_iff_ne]
          rintro rfl
          exact hnd.1 ha
        rw [List.zip_cons_cons, List.lookup_cons, hne]
      simp [lookupArgs, h0, h1]

theorem lookupArgs_zip {Val : Type} (names : List String) (args : List Val)
    (hnd : names.Nodup) (hl : names.length = args.length) :
    lookupArgs (names.zip args) names = some args :=
  lookupArgs_of_agree names args _ hnd hl (fun _ _ => rfl)

/-! ## The emitted methods in closed form -/

theorem runMethod_genMethod {σ Val : Type} (rw : Rw σ Val) (iface : Interface)
    (fn : InterfaceFunc) (args : List Val) (f : Method σ Val)
    (hw : implements rw.w iface = true) (hf : rw.w fn.Name = some f)
    (hnd : (fn.Args.map fun a => a.Name).Nodup) (ha : args.length = fn.Args.length) :
    runMethod rw (genMethod iface fn) args =
      match rw.h fn.Name with
      | none => if fn.Returns = "" then f args >>= fun _ => pure [] else f args
      | some h => h f >>= fun g =>
          if fn.Returns = "" then g args >>= fun _ => pure [] else g args := by
  have hl := lookupArgs_zip (fn.Args.map fun a => a.Name) args hnd (by simp [ha])
  unfold runMethod genMethod
  simp only [execBody, hw, if_true, hf]
  cases hh : rw.h fn.Name with
  | none =>
    simp only [execBody, hl]
    by_cases hr : fn.Returns = ""
    · simp [hr, execBody]
    · simp [hr]
  | some h =>
    simp only [execBody, hl]
    by_cases hr : fn.Returns = ""
    · simp [hr, execBody]
    · simp [hr]

theorem runMethod_hooks_congr {σ Val : Type} (w : Object σ Val) (h1 h2 : Hooks σ Val)
    (iface : Interface) (fn : InterfaceFunc) (args : List Val)
    (hh : h1 fn.Name = h2 fn.Name) :
    runMethod ⟨w, h1⟩ (genMethod iface fn) args = runMethod ⟨w, h2⟩ (genMethod iface fn) args := by
  unfold runMethod genMethod
  simp only [execBody]
  by_cases hw : implements w iface = true
  · simp only [hw, if_true]
    cases w fn.Name with
    | none => rfl
    | some m =>
      simp only [hh]
  · simp only [hw, Bool.false_eq_true, if_false]

/-! ## Facts about the compiled-in catalog -/

theorem ifaces_args_nodup :
    ∀ p ∈ allFuncs ifaces, (p.2.Args.map fun a => a.Name).Nodup := by decide

theorem ifaces_name_inj :
    ∀ a ∈ ifaces, ∀ b ∈ ifaces, a.Name = b.Name → a = b := by decide

theorem subIfaces_length : subIfaces.length ≤ 62 := by decide

theorem getD_detect {σ Val : Type} (subs : List Interface) (w : Object σ Val) (j : Nat)
    (hj : j < subs.length) : (detect subs w).getD j false = implements w subs[j] := by
  simp [detect, List.getD_eq_getElem?_getD, hj]

/-! ## The claims -/

/-- C1: for every combination of the four detection flags, exactly one emitted
case holds, it is the case taken by the switch, and its embedded fields are
`http.ResponseWriter` followed by exactly the optional interfaces whose flag is
true; `Wrap` returns that struct for every `w`. -/
theorem C1_selected_case_exposes_detected :
    (∀ b0 b1 b2 b3 : Bool,
      (genCases subIfaces).filter (Case.holds [b0, b1, b2, b3]) =
        [⟨[⟨!b0, 0⟩, ⟨!b1, 1⟩, ⟨!b2, 2⟩, ⟨!b3, 3⟩],
          ["http.ResponseWriter"] ++ (if b0 then ["http.Flusher"] else [])
            ++ (if b1 then ["http.CloseNotifier"] else [])
            ++ (if b2 then ["http.Hijacker"] else [])
            ++ (if b3 then ["io.ReaderFrom"] else [])⟩]
      ∧ (selectCase subIfaces [b0, b1, b2, b3]).map Case.fields =
        some (["http.ResponseWriter"] ++ (if b0 then ["http.Flusher"] else [])
            ++ (if b1 then ["http.CloseNotifier"] else [])
            ++ (if b2 then ["http.Hijacker"] else [])
            ++ (if b3 then ["io.ReaderFrom"] else [])))
    ∧ (∀ (σ Val : Type) (w : Object σ Val) (hooks : Hooks σ Val),
        Wrap subIfaces w hooks = some
          ⟨["http.ResponseWriter"] ++ (if (w "Flush").isSome then ["http.Flusher"] else [])
            ++ (if (w "CloseNotify").isSome then ["http.CloseNotifier"] else [])
            ++ (if (w "Hijack").isSome then ["http.Hijacker"] else [])
            ++ (if (w "ReadFrom").isSome then ["io.ReaderFrom"] else []), ⟨w, hooks⟩⟩) := by
  have key : ∀ b0 b1 b2 b3 : Bool,
      (genCases subIfaces).filter (Case.holds [b0, b1, b2, b3]) =
        [⟨[⟨!b0, 0⟩, ⟨!b1, 1⟩, ⟨!b2, 2⟩, ⟨!b3, 3⟩],
          ["http.ResponseWriter"] ++ (if b0 then ["http.Flusher"] else [])
            ++ (if b1 then ["http.CloseNotifier"] else [])
            ++ (if b2 then ["http.Hijacker"] else [])
            ++ (if b3 then ["io.ReaderFrom"] else [])⟩] := by
    intro b0 b1 b2 b3
    cases b0 <;> cases b1 <;> cases b2 <;> cases b3 <;> decide
  have sel : ∀ b0 b1 b2 b3 : Bool, selectCase subIfaces [b0, b1, b2, b3] =
      some ⟨[⟨!b0, 0⟩, ⟨!b1, 1⟩, ⟨!b2, 2⟩, ⟨!b3, 3⟩],
          ["http.ResponseWriter"] ++ (if b0 then ["http.Flusher"] else [])
            ++ (if b1 then ["http.CloseNotifier"] else [])
            ++ (if b2 then ["http.Hijacker"] else [])
            ++ (if b3 then ["io.ReaderFrom"] else [])⟩ := by
    intro b0 b1 b2 b3
    unfold selectCase
    rw [← List.filter_head?, key]
    rfl
  refine ⟨fun b0 b1 b2 b3 => ⟨key b0 b1 b2 b3, by rw [sel]; rfl⟩, ?_⟩
  intro σ Val w hooks
  have hd : detect subIfaces w =
      [(w "Flush").isSome, (w "CloseNotify").isSome, (w "Hijack").isSome,
        (w "ReadFrom").isSome] := by
    simp [detect, subIfaces, ifaces, implements]
  unfold Wrap
  simp only [hd, sel]

/-- C2: for every operation of the catalog whose `Hooks` field is nil, the
emitted `rw` method calls the same-named method `f` of the underlying `w` once
with the caller's arguments and returns what it returns (nothing, after the one
call, when the return shape is empty). -/
theorem C2_nil_hook_passthrough {σ Val : Type} (p : Interface × InterfaceFunc)
    (hp : p ∈ allFuncs ifaces) (rw : Rw σ Val) (f : Method σ Val) (args : List Val)
    (hw : implements rw.w p.1 = true) (hf : rw.w p.2.Name = some f)
    (hh : rw.h p.2.Name = none) (ha : args.length = p.2.Args.length) :
    runMethod rw (genMethod p.1 p.2) args =
      if p.2.Returns = "" then f args >>= fun _ => pure [] else f args := by
  rw [runMethod_genMethod rw p.1 p.2 args f hw hf (ifaces_args_nodup p hp) ha, hh]

/-- C3: for every operation of the catalog whose `Hooks` field holds a hook `h`,
the emitted `rw` method applies `h` once to the bound method `f` of the
underlying `w`, then calls the callable `h(f)` once with the caller's arguments
in declared order and returns its result unchanged; `f` is not called by the
method itself. -/
theorem C3_hook_applied_once {σ Val : Type} (p : Interface × InterfaceFunc)
    (hp : p ∈ allFuncs ifaces) (rw : Rw σ Val) (f : Method σ Val) (h : Hook σ Val)
    (args : List Val)
    (hw : implements rw.w p.1 = true) (hf : rw.w p.2.Name = some f)
    (hh : rw.h p.2.Name = some h) (ha : args.length = p.2.Args.length) :
    runMethod rw (genMethod p.1 p.2) args =
      h f >>= fun g => if p.2.Returns = "" then g args >>= fun _ => pure [] else g args := by
  rw [runMethod_genMethod rw p.1 p.2 args f hw hf (ifaces_args_nodup p hp) ha, hh]

theorem genCases_length (subs : List Interface) (hn : subs.length ≤ 62) :
    (genCases subs).length = 2 ^ subs.length := by
  rw [genCases_eq subs hn]; simp

theorem genCases_getElem? (subs : List Interface) (hn : subs.length ≤ 62) (i : Nat)
    (hi : i < 2 ^ subs.length) : (genCases subs)[i]? = some (genCase subs (i : Int)) := by
  rw [genCases_eq subs hn]
  simp [List.getElem?_map, List.getElem?_range hi]

theorem genCase_testBit (subs : List Interface) (hn : subs.length ≤ 62) (i : Nat) :
    genCase subs (i : Int) =
      ⟨(List.range subs.length).map (fun j => ⟨!i.testBit (subs.length - 1 - j), j⟩),
       "http.ResponseWriter" ::
         (subs.enum.filter fun p => i.testBit (subs.length - 1 - p.1)).map fun p => p.2.Name⟩ := by
  rw [genCase_eq]
  have e : ∀ j, subs.length - j - 1 = subs.length - 1 - j := fun j => by omega
  congr 1
  · rw [← List.enum_map_fst, List.map_map]
    apply List.map_congr_left
    intro p _
    simp only [Function.comp, okBit_eq _ _ _ hn, e]
  · congr 2
    apply List.filter_congr
    intro p _
    rw [okBit_eq _ _ _ hn, e]

theorem detectedNames_inj (subs : List Interface) (hnd : (subs.map fun s => s.Name).Nodup)
    (f1 f2 : List Bool) (h1 : f1.length = subs.length) (h2 : f2.length = subs.length)
    (h : detectedNames subs f1 = detectedNames subs f2) : f1 = f2 := by
  have key := filter_names_inj subs.enum _ _ (by rw [enum_names]; exact hnd) h
  apply List.ext_getElem (by omega)
  intro j hj1 hj2
  have hm : (j, subs[j]) ∈ subs.enum := by
    rw [List.mk_mem_enum_iff_getElem?]; simp [show j < subs.length by omega]
  have := key _ hm
  simpa [List.getD_eq_getElem?_getD, hj1, hj2] using this

/-- C4: under every assignment of the detection flags exactly one emitted case
condition is true, the switch takes that case, and `Wrap` never reaches the
trailing `panic("unreachable")`; stated for every list of optional capabilities
whose `2^N` fits Go's `int`. -/
theorem C4_selection_total (subs : List Interface) (flags : List Bool)
    (hn : subs.length ≤ 62) (hf : flags.length = subs.length) :
    (genCases subs).length = 2 ^ subs.length
    ∧ (∃ c, (genCases subs).filter (Case.holds flags) = [c] ∧ selectCase subs flags = some c)
    ∧ (∀ (σ Val : Type) (w : Object σ Val) (hooks : Hooks σ Val),
        (Wrap subs w hooks).isSome = true) := by
  refine ⟨genCases_length subs hn, ⟨_, filter_holds subs flags hn hf,
    selectCase_eq subs flags hn hf⟩, ?_⟩
  intro σ Val w hooks
  rw [Wrap_eq subs w hooks hn]
  rfl

/-- C5: for optional capabilities with pairwise distinct names (and `2^N` within
Go's `int`), the loop emits `2^N` cases, no two cases have the same field list,
distinct subsets have distinct field lists, every subset is the field list of
exactly one case and every case is the field list of a subset; the compiled-in
catalog gives 16 cases. -/
theorem C5_enumeration_bijective (subs : List Interface) (hn : subs.length ≤ 62)
    (hnd : (subs.map fun s => s.Name).Nodup) :
    (genCases subs).length = 2 ^ subs.length
    ∧ ((genCases subs).map Case.fields).Nodup
    ∧ (∀ f1 f2 : List Bool, f1.length = subs.length → f2.length = subs.length →
        detectedNames subs f1 = detectedNames subs f2 → f1 = f2)
    ∧ (∀ flags : List Bool, flags.length = subs.length →
        ∃! i, i < (genCases subs).length ∧
          ((genCases subs)[i]?).map Case.fields
            = some ("http.ResponseWriter" :: detectedNames subs flags))
    ∧ (∀ c ∈ genCases subs, ∃ flags : List Bool, flags.length = subs.length ∧
          c.fields = "http.ResponseWriter" :: detectedNames subs flags)
    ∧ (genCases subIfaces).length = 16 := by
  have hlen := genCases_length subs hn
  refine ⟨hlen, ?_, ?_, ?_, ?_, by decide⟩
  · rw [genCases_eq subs hn, List.map_map]
    apply List.Nodup.map_on _ (List.nodup_range _)
    intro i hi k hk h
    exact genCase_fields_inj subs hn hnd i k (List.mem_range.1 hi) (List.mem_range.1 hk) h
  · intro f1 f2 h1 h2 h
    exact detectedNames_inj subs hnd f1 f2 h1 h2 h
  · intro flags hf
    have hlt : flagsIndex flags < 2 ^ subs.length := hf ▸ flagsIndex_lt flags
    refine ⟨flagsIndex flags, ⟨by omega, ?_⟩, ?_⟩
    · rw [genCases_getElem? subs hn _ hlt, Option.map_some',
        fields_genCase_flagsIndex subs flags hn hf]
    · rintro k ⟨hk, hk2⟩
      rw [hlen] at hk
      rw [genCases_getElem? subs hn _ hk, Option.map_some', Option.some.injEq,
        ← fields_genCase_flagsIndex subs flags hn hf] at hk2
      exact genCase_fields_inj subs hn hnd k _ hk hlt hk2
  · intro c hc
    rw [genCases_eq subs hn] at hc
    obtain ⟨i, hi, rfl⟩ := List.mem_map.1 hc
    have hi := List.mem_range.1 hi
    refine ⟨(List.range subs.length).map fun j => i.testBit (subs.length - 1 - j), by simp, ?_⟩
    rw [genCase_testBit subs hn]
    unfold detectedNames
    simp only
    congr 2
    apply List.filter_congr
    rintro ⟨j, x⟩ hm
    have hj := (List.mem_enum hm).1
    simp [List.getD_eq_getElem?_getD, hj]

/-- C9: the cases come in counter order, most significant capability first: the
case emitted at position `i` has, for every `j`, the conjunct on flag `j`,
negated iff bit `N-1-j` of `i` is 0, and its field list is `http.ResponseWriter`
followed, in catalog order, by the optional capabilities `j` whose bit `N-1-j` of
`i` is 1; the first case is the base-only shape and the last lists every
optional capability (for `2^N` within Go's `int`). -/
theorem C9_counter_order (subs : List Interface) (hn : subs.length ≤ 62) (i : Nat)
    (hi : i < 2 ^ subs.length) :
    (genCases subs)[i]? = some
        ⟨(List.range subs.length).map (fun j => ⟨!i.testBit (subs.length - 1 - j), j⟩),
         "http.ResponseWriter" ::
           (subs.enum.filter fun p => i.testBit (subs.length - 1 - p.1)).map fun p => p.2.Name⟩
    ∧ (genCases subs).length = 2 ^ subs.length
    ∧ ((genCases subs)[0]?).map Case.fields = some ["http.ResponseWriter"]
    ∧ ((genCases subs)[2 ^ subs.length - 1]?).map Case.fields
        = some ("http.ResponseWriter" :: subs.map fun s => s.Name) := by
  have hpos : 0 < 2 ^ subs.length := Nat.pow_pos (by norm_num)
  refine ⟨?_, genCases_length subs hn, ?_, ?_⟩
  · rw [genCases_getElem? subs hn i hi, genCase_testBit subs hn]
  · rw [genCases_getElem? subs hn 0 hpos, genCase_testBit subs hn]
    simp
  · rw [genCases_getElem? subs hn _ (by omega), genCase_testBit subs hn]
    simp only [Option.map_some', Nat.testBit_two_pow_sub_one, Option.some.injEq,
      List.cons.injEq, true_and]
    rw [← enum_names]
    congr 1
    apply List.filter_eq_self.2
    rintro ⟨j, x⟩ hm
    have hj := (List.mem_enum hm).1
    simp only [decide_eq_true_eq]
    omega

/-- Beyond the range of Go's `int` the loop bound wraps around: with 63 optional
capabilities it is negative and no case is emitted. -/
theorem genCases_of_length_63 (subs : List Interface) (h : subs.length = 63) :
    genCases subs = [] := by
  have hb : (shl 1 63).toNat = 0 := by decide
  unfold genCases loopBound
  rw [h, hb]
  rfl

/-- C6: for two `Hooks` values that agree on every operation of
`http.ResponseWriter` and of the optional interfaces detected on `w`, `Wrap`
returns structs with the same embedded interfaces, and every call of an
operation on the two structs is the same computation: hooks of undetected
interfaces have no effect. -/
theorem C6_unsupported_hooks_ignored {σ Val : Type} (w : Object σ Val) (h1 h2 : Hooks σ Val)
    (H : ∀ iface ∈ ifaces,
      (iface.Name = "http.ResponseWriter" ∨ (iface ∈ subIfaces ∧ implements w iface = true)) →
        ∀ fn ∈ iface.Funcs, h1 fn.Name = h2 fn.Name) :
    ∃ fields, Wrap subIfaces w h1 = some ⟨fields, ⟨w, h1⟩⟩
      ∧ Wrap subIfaces w h2 = some ⟨fields, ⟨w, h2⟩⟩
      ∧ ∀ (op : String) (args : List Val),
          Wrapped.exposes ifaces (⟨fields, ⟨w, h1⟩⟩ : Wrapped σ Val) op
            = Wrapped.exposes ifaces (⟨fields, ⟨w, h2⟩⟩ : Wrapped σ Val) op
          ∧ Wrapped.call ifaces ⟨fields, ⟨w, h1⟩⟩ op args
            = Wrapped.call ifaces ⟨fields, ⟨w, h2⟩⟩ op args := by
  refine ⟨_, Wrap_eq subIfaces w h1 subIfaces_length, Wrap_eq subIfaces w h2 subIfaces_length, ?_⟩
  intro op args
  refine ⟨rfl, ?_⟩
  unfold Wrapped.call
  by_cases hex : Wrapped.exposes ifaces
      (⟨"http.ResponseWriter" :: detectedNames subIfaces (detect subIfaces w), ⟨w, h1⟩⟩ :
        Wrapped σ Val) op = true
  · have hex2 : Wrapped.exposes ifaces
        (⟨"http.ResponseWriter" :: detectedNames subIfaces (detect subIfaces w), ⟨w, h2⟩⟩ :
          Wrapped σ Val) op = true := hex
    rw [if_pos hex, if_pos hex2]
    -- the hooks agree on the operation
    have hop : h1 op = h2 op := by
      unfold Wrapped.exposes at hex
      rw [List.any_eq_true] at hex
      obtain ⟨iface, hmem, hcond⟩ := hex
      rw [Bool.and_eq_true, List.any_eq_true] at hcond
      obtain ⟨hfield, fn, hfn, hname⟩ := hcond
      have hname : fn.Name = op := by simpa using hname
      have hfield : iface.Name ∈
          "http.ResponseWriter" :: detectedNames subIfaces (detect subIfaces w) := by
        simpa using hfield
      rw [← hname]
      rcases List.mem_cons.1 hfield with hb | hd
      · exact H iface hmem (Or.inl hb) fn hfn
      · unfold detectedNames at hd
        obtain ⟨⟨j, s⟩, hjs, hs⟩ := List.mem_map.1 hd
        obtain ⟨hjs, hflag⟩ := List.mem_filter.1 hjs
        obtain ⟨hj, hsj⟩ := List.mem_enum hjs
        simp only at hs hflag
        rw [hsj] at hs
        rw [getD_detect subIfaces w j hj] at hflag
        have hsub : subIfaces[j] ∈ subIfaces := List.getElem_mem _
        have hsi : subIfaces[j] ∈ ifaces := List.mem_of_mem_drop hsub
        have heq : subIfaces[j] = iface := ifaces_name_inj _ hsi _ hmem hs
        rw [heq] at hsub hflag
        exact H iface hmem (Or.inr ⟨hsub, hflag⟩) fn hfn
    cases hfind : (rwMethods ifaces).find? (fun d => d.name == op) with
    | none => rfl
    | some d =>
      have hd := List.mem_of_find?_eq_some hfind
      have hdn : d.name = op := by simpa using List.find?_some hfind
      unfold rwMethods at hd
      obtain ⟨p, _, rfl⟩ := List.mem_map.1 hd
      have hpn : p.2.Name = op := hdn
      simp only [Option.map_some']
      rw [runMethod_hooks_congr w h1 h2 p.1 p.2 args (by rw [hpn]; exact hop)]
  · have hex2 : ¬ Wrapped.exposes ifaces
        (⟨"http.ResponseWriter" :: detectedNames subIfaces (detect subIfaces w), ⟨w, h2⟩⟩ :
          Wrapped σ Val) op = true := hex
    rw [if_neg hex, if_neg hex2]

/-- C7: the case taken by the emitted `Wrap` is a function of `w` alone: for any
two `Hooks` values the same case is selected and the two returned structs embed
the same interfaces. -/
theorem C7_shape_independent_of_hooks {σ Val : Type} (w : Object σ Val)
    (h1 h2 : Hooks σ Val) :
    ∃ c, selectCase subIfaces (detect subIfaces w) = some c
      ∧ Wrap subIfaces w h1 = some ⟨c.fields, ⟨w, h1⟩⟩
      ∧ Wrap subIfaces w h2 = some ⟨c.fields, ⟨w, h2⟩⟩ := by
  have hs := selectCase_eq subIfaces (detect subIfaces w) subIfaces_length
    (detect_length subIfaces w)
  refine ⟨_, hs, ?_, ?_⟩ <;> simp only [Wrap, hs]

/-- C8: the emitted `Hooks` struct has one field line per operation of the whole
catalog, in catalog order; the field of operation `X` is `X func(XFunc) XFunc`;
for the compiled-in catalog these are the seven listed fields, and the field
names, the `rw` method names and the `XFunc` type names are pairwise distinct. -/
theorem C8_hooks_struct_fields :
    (∀ cat : List Interface, hooksStructLines cat =
        (allFuncs cat).map fun p =>
          p.2.Name ++ " func(" ++ (p.2.Name ++ "Func") ++ ") " ++ (p.2.Name ++ "Func") ++ "\n")
    ∧ hooksStructLines ifaces =
      [ "Header func(HeaderFunc) HeaderFunc\n",
        "WriteHeader func(WriteHeaderFunc) WriteHeaderFunc\n",
        "Write func(WriteFunc) WriteFunc\n",
        "Flush func(FlushFunc) FlushFunc\n",
        "CloseNotify func(CloseNotifyFunc) CloseNotifyFunc\n",
        "Hijack func(HijackFunc) HijackFunc\n",
        "ReadFrom func(ReadFromFunc) ReadFromFunc\n" ]
    ∧ ((allFuncs ifaces).map fun p => p.2.Name)
        = ["Header", "WriteHeader", "Write", "Flush", "CloseNotify", "Hijack", "ReadFrom"]
    ∧ ((allFuncs ifaces).map fun p => p.2.Name).Nodup
    ∧ ((rwMethods ifaces).map fun d => d.name).Nodup
    ∧ ((allFuncs ifaces).map fun p => p.2.TypeName).Nodup := by
  refine ⟨fun cat => rfl, by decide, by decide, by decide, by decide, by decide⟩

/-- C10: the catalog uses the package qualifiers `http`, `io`, `net` and `bufio`
(the last two in the return shape of `Hijack`, which is printed into the emitted
`HijackFunc` type), while the emitted header imports only `net/http` and `io`:
`net` and `bufio` are used but not imported. -/
theorem C10_header_lacks_net_and_bufio :
    (∀ q ∈ ["http", "io", "net", "bufio"], q ∈ usedPackages ifaces)
    ∧ (∀ q ∈ usedPackages ifaces, q ∈ ["http", "io", "net", "bufio"])
    ∧ importedPackages packageHeader = ["http", "io"]
    ∧ "net" ∉ importedPackages packageHeader
    ∧ "bufio" ∉ importedPackages packageHeader
    ∧ (hookFuncLines ⟨"http.Hijacker", []⟩ ⟨"Hijack", [], "net.Conn, *bufio.ReadWriter, error"⟩)[1]?
        = some "type HijackFunc func() (net.Conn, *bufio.ReadWriter, error)\n" := by
  refine ⟨by decide, by decide, by decide, by decide, by decide, by decide⟩

/-! ## The emitted text at sample points -/

/-- The text of the case at position 5 and of the emitted `Write` method. -/
theorem emitted_text_samples :
    ((genCases subIfaces).map caseLines)[5]? = some
      [ "case !i0&&i1&&!i2&&i3:\n",
        "return struct\x7b\nhttp.ResponseWriter\nhttp.CloseNotifier\nio.ReaderFrom\n\x7d\x7brw,rw,rw\x7d\n" ]
    ∧ methodLines exampleOp.1 exampleOp.2 =
      [ "func (w *rw) Write(b []byte) (int, error) \x7b\n",
        "f := w.w.(http.ResponseWriter).Write\n",
        "if w.h.Write != nil \x7b\n",
        "f = w.h.Write(f)\n",
        "\x7d\n",
        "return ",
        "f(b)\n",
        "\x7d\n",
        "\n" ]
    ∧ detectLines subIfaces =
      [ "_, i0 := w.(http.Flusher)\n", "_, i1 := w.(http.CloseNotifier)\n",
        "_, i2 := w.(http.Hijacker)\n", "_, i3 := w.(io.ReaderFrom)\n" ] := by
  refine ⟨by decide, by decide, by decide⟩

/-! ## Instances of the claims at example values -/

theorem exampleHooks_agree : ∀ iface ∈ ifaces,
    (iface.Name = "http.ResponseWriter" ∨
      (iface ∈ subIfaces ∧ implements exampleWriter iface = true)) →
    ∀ fn ∈ iface.Funcs, noHooks fn.Name = flushHooks fn.Name := by
  intro iface hmem hcond fn hfn
  simp only [ifaces, List.mem_cons, List.mem_singleton, List.not_mem_nil, or_false] at hmem
  rcases hmem with rfl | rfl | rfl | rfl | rfl
  · simp only [List.mem_cons, List.mem_singleton, List.not_mem_nil, or_false] at hfn
    rcases hfn with rfl | rfl | rfl <;> rfl
  all_goals
    rcases hcond with hb | ⟨_, hi⟩
    · exact absurd hb (by decide)
    · exact absurd hi (by decide)

/-- Instance of C2: `Write` on a base-only writer with no hooks. -/
theorem C2_nil_hook_passthrough_witness :
    exampleOp ∈ allFuncs ifaces
    ∧ implements exampleWriter exampleOp.1 = true
    ∧ exampleWriter exampleOp.2.Name = some exampleMethod
    ∧ noHooks exampleOp.2.Name = none
    ∧ runMethod (⟨exampleWriter, noHooks⟩ : Rw Nat Nat) (genMethod exampleOp.1 exampleOp.2) [7]
        = if exampleOp.2.Returns = "" then exampleMethod [7] >>= fun _ => pure []
          else exampleMethod [7] :=
  ⟨by decide, by decide, rfl, rfl,
    C2_nil_hook_passthrough exampleOp (by decide) ⟨exampleWriter, noHooks⟩ exampleMethod [7]
      (by decide) rfl rfl rfl⟩

/-- Instance of C3: `Write` on a base-only writer with a hook on `Write`. -/
theorem C3_hook_applied_once_witness :
    exampleOp ∈ allFuncs ifaces
    ∧ implements exampleWriter exampleOp.1 = true
    ∧ exampleWriter exampleOp.2.Name = some exampleMethod
    ∧ writeHooks exampleOp.2.Name = some exampleHook
    ∧ runMethod (⟨exampleWriter, writeHooks⟩ : Rw Nat Nat) (genMethod exampleOp.1 exampleOp.2) [7]
        = exampleHook exampleMethod >>= fun g =>
            if exampleOp.2.Returns = "" then g [7] >>= fun _ => pure [] else g [7] :=
  ⟨by decide, by decide, rfl, rfl,
    C3_hook_applied_once exampleOp (by decide) ⟨exampleWriter, writeHooks⟩ exampleMethod
      exampleHook [7] (by decide) rfl rfl rfl⟩

/-- Instance of C4: the compiled-in catalog with flags `i0` and `i2` set. -/
theorem C4_selection_total_witness :
    subIfaces.length ≤ 62
    ∧ [true, false, true, false].length = subIfaces.length
    ∧ (genCases subIfaces).length = 2 ^ subIfaces.length
    ∧ ∃ c, (genCases subIfaces).filter (Case.holds [true, false, true, false]) = [c]
        ∧ selectCase subIfaces [true, false, true, false] = some c :=
  ⟨by decide, by decide,
    (C4_selection_total subIfaces [true, false, true, false] (by decide) (by decide)).1,
    (C4_selection_total subIfaces [true, false, true, false] (by decide) (by decide)).2.1⟩

/-- Instance of C5: the compiled-in catalog. -/
theorem C5_enumeration_bijective_witness :
    subIfaces.length ≤ 62
    ∧ (subIfaces.map fun s => s.Name).Nodup
    ∧ (genCases subIfaces).length = 2 ^ subIfaces.length
    ∧ ((genCases subIfaces).map Case.fields).Nodup :=
  ⟨by decide, by decide,
    (C5_enumeration_bijective subIfaces (by decide) (by decide)).1,
    (C5_enumeration_bijective subIfaces (by decide) (by decide)).2.1⟩

/-- Instance of C6: a base-only writer, no hooks against a hook on `Flush`. -/
theorem C6_unsupported_hooks_ignored_witness :
    ∃ fields,
      Wrap subIfaces exampleWriter noHooks = some ⟨fields, ⟨exampleWriter, noHooks⟩⟩
      ∧ Wrap subIfaces exampleWriter flushHooks = some ⟨fields, ⟨exampleWriter, flushHooks⟩⟩
      ∧ Wrapped.call ifaces ⟨fields, ⟨exampleWriter, noHooks⟩⟩ "Write" [7]
          = Wrapped.call ifaces ⟨fields, ⟨exampleWriter, flushHooks⟩⟩ "Write" [7] := by
  obtain ⟨fields, h1, h2, h3⟩ :=
    C6_unsupported_hooks_ignored exampleWriter noHooks flushHooks exampleHooks_agree
  exact ⟨fields, h1, h2, (h3 "Write" [7]).2⟩

/-- Instance of C9: the case at position 5 (binary 0101) of the compiled-in catalog. -/
theorem C9_counter_order_witness :
    subIfaces.length ≤ 62 ∧ 5 < 2 ^ subIfaces.length
    ∧ (genCases subIfaces)[5]? = some
        ⟨[⟨true, 0⟩, ⟨false, 1⟩, ⟨true, 2⟩, ⟨false, 3⟩],
         ["http.ResponseWriter", "http.CloseNotifier", "io.ReaderFrom"]⟩ :=
  ⟨by decide, by decide,
    (C9_counter_order subIfaces (by decide) 5 (by decide)).1.trans (by decide)⟩

end Codegen
